import Mathlib

/-!
Shallow embedding of the `lsm-tree` crate (files `src/tree.rs` and
`src/segment/index/mod.rs`) together with proofs about the claims of its
specification.

Keys and values are byte strings, modelled as `List Nat`; the order on
`List Nat` provided by Mathlib is the lexicographic order, which agrees
with the `Ord` instance of Rust byte slices used by the source.
Sequence numbers (`SeqNo`, a `u64` counter) are modelled as `Nat`;
nothing in the verified code depends on 64-bit wraparound.
-/

namespace LsmTree

/-- Byte strings (`Vec<u8>` / `&[u8]` / `UserKey` in the source). -/
abbrev Bytes := List Nat

/-- Value record, from `value.rs` (via the spec data model section):
`(user_key, value_bytes, is_tombstone, seqno)`. -/
structure Value where
  key : Bytes
  value : Bytes
  is_tombstone : Bool
  seqno : Nat
deriving DecidableEq, Repr

/-- `Value::new(key, value, is_tombstone, seqno)`. -/
def Value.new (key value : Bytes) (tomb : Bool) (seqno : Nat) : Value :=
  ⟨key, value, tomb, seqno⟩

/-- Modelled from the spec: `MemTable::get` and `Segment::get` are not under
`src/`; the spec says both return the record with the greatest seqno for the
given user key, or none (§4.4, §4.5).  The same selection function serves for
memtables and for segments, both modelled as lists of value records. -/
def getNewest (items : List Value) (key : Bytes) : Option Value :=
  items.foldl
    (fun best v =>
      if v.key = key then
        match best with
        | none => some v
        | some b => if b.seqno < v.seqno then some v else some b
      else best)
    none

/-- `ignore_tombstone_value` from `tree.rs` lines 55-61. -/
def ignore_tombstone_value (item : Value) : Option Value :=
  if item.is_tombstone then none else some item

/-- The fields of `TreeInner` that the verified operations touch.
`journal` is the sequence of records appended to the active journal
(shards are serialized by the shard lock, so one list suffices for the
sequential model), `active` is the active memtable,
`immutable_memtables` is the id-keyed map of immutable memtables in
ascending id order (its `iter().rev()` is newest first), and `segments`
is `Levels::get_all_segments_flattened()` in probe order (modelled from
the spec: L0 newest first, then L1..Ln). -/
structure TreeState where
  lsn : Nat
  journal : List Value
  active : List Value
  immutable_memtables : List (Nat × List Value)
  segments : List (List Value)
  active_journal_size_bytes : Nat
  max_memtable_size : Nat
deriving DecidableEq

/-- `Tree::get_internal_entry` from `tree.rs` lines 881-922: active memtable
first, then immutable memtables newest to oldest, then segments; the first
hit is returned, filtered through `ignore_tombstone_value` when
`evict_tombstone` is set. -/
def Tree.get_internal_entry (t : TreeState) (key : Bytes) (evict_tombstone : Bool) :
    Option Value :=
  match getNewest t.active key with
  | some item => if evict_tombstone then ignore_tombstone_value item else some item
  | none =>
    match t.immutable_memtables.reverse.findSome? (fun p => getNewest p.2 key) with
    | some item => if evict_tombstone then ignore_tombstone_value item else some item
    | none =>
      match t.segments.findSome? (fun s => getNewest s key) with
      | some item => if evict_tombstone then ignore_tombstone_value item else some item
      | none => none

/-- `Tree::get` from `tree.rs` lines 944-946. -/
def Tree.get (t : TreeState) (key : Bytes) : Option Bytes :=
  (Tree.get_internal_entry t key true).map (fun x => x.value)

/-- Modelled from the spec: byte size of one journal shard record for a
value, `len: u32 | crc32: u32 | Value-bytes`, where a value serializes as
`seqno: u64 | is_tombstone: u8 | key_len: u16 | key | value_len: u32 | value`
(§4.1, §4.5).  `JournalShard::write` (not under `src/`) returns this size. -/
def journalRecordSize (v : Value) : Nat :=
  4 + 4 + (8 + 1 + 2 + v.key.length + 4 + v.value.length)

/-- `Tree::append_entry` from `tree.rs` lines 539-562: write the record to the
journal shard, insert it into the active memtable, add the record size to the
`active_journal_size_bytes` counter (`fetch_add` returns the old value), and
request a flush when the old counter value exceeded `max_memtable_size`.
The returned flag records whether `flush::start` was called. -/
def Tree.append_entry (t : TreeState) (v : Value) : TreeState × Bool :=
  let size := journalRecordSize v
  let memtable_size := t.active_journal_size_bytes
  ({ t with
      journal := t.journal ++ [v]
      active := t.active ++ [v]
      active_journal_size_bytes := t.active_journal_size_bytes + size },
    decide (t.max_memtable_size < memtable_size))

/-- `Tree::insert` from `tree.rs` lines 583-600: take a journal shard lock,
assign `seqno = lsn.fetch_add(1)` (the old counter value), build the value
with `is_tombstone = false`, and run it through `append_entry`. -/
def Tree.insert (t : TreeState) (key value : Bytes) : TreeState × Bool :=
  let seqno := t.lsn
  Tree.append_entry { t with lsn := t.lsn + 1 } (Value.new key value false seqno)

/-- `Tree::remove` from `tree.rs` lines 627-640: take a journal shard lock,
assign `seqno = lsn.fetch_add(1)`, build the value with an empty value and
`is_tombstone = true`, and run it through `append_entry`. -/
def Tree.remove (t : TreeState) (key : Bytes) : TreeState × Bool :=
  let seqno := t.lsn
  Tree.append_entry { t with lsn := t.lsn + 1 } (Value.new key [] true seqno)

/-- `Tree::create_new` from `tree.rs` lines 265-307: a fresh tree starts with
`lsn = 0`, empty journal and memtables, no segments, and a zero byte counter. -/
def Tree.create_new (max_memtable_size : Nat) : TreeState :=
  { lsn := 0
    journal := []
    active := []
    immutable_memtables := []
    segments := []
    active_journal_size_bytes := 0
    max_memtable_size := max_memtable_size }

/-! ### Specification-side description of the read path (for C1) -/

/-- The lookup components of the tree in the order the spec lists them:
active memtable, immutable memtables newest to oldest, then segments. -/
def componentsOf (t : TreeState) : List (List Value) :=
  t.active :: (t.immutable_memtables.reverse.map (fun p => p.2) ++ t.segments)

/-- The record found in the first component that holds one for the key. -/
def firstHit (t : TreeState) (key : Bytes) : Option Value :=
  (componentsOf t).findSome? (fun c => getNewest c key)

/-! ### List helper lemmas -/

theorem findSome?_append_none {α β : Type} (f : α → Option β) (l₁ l₂ : List α)
    (h : l₁.findSome? f = none) :
    (l₁ ++ l₂).findSome? f = l₂.findSome? f := by
  induction l₁ with
  | nil => rfl
  | cons a as ih =>
    rw [List.findSome?_cons] at h
    rw [List.cons_append, List.findSome?_cons]
    cases hfa : f a with
    | some b => rw [hfa] at h; exact absurd h (by simp)
    | none => rw [hfa] at h; exact ih h

theorem findSome?_append_some {α β : Type} (f : α → Option β) (l₁ l₂ : List α)
    (b : β) (h : l₁.findSome? f = some b) :
    (l₁ ++ l₂).findSome? f = some b := by
  induction l₁ with
  | nil => simp [List.findSome?] at h
  | cons a as ih =>
    rw [List.findSome?_cons] at h
    rw [List.cons_append, List.findSome?_cons]
    cases hfa : f a with
    | some c => rw [hfa] at h; exact h
    | none => rw [hfa] at h; exact ih h

theorem findSome?_map {α β γ : Type} (g : α → β) (f : β → Option γ) (l : List α) :
    (l.map g).findSome? f = l.findSome? (fun x => f (g x)) := by
  induction l with
  | nil => rfl
  | cons a as ih =>
    rw [List.map_cons, List.findSome?_cons, List.findSome?_cons]
    cases f (g a) <;> simp [ih]

/-- C1.  `Tree::get` consults the active memtable, then the immutable
memtables from newest to oldest, then the segments; the first component
holding a record for the key decides the result: a tombstone gives `none`,
any other record gives its value, and later components never override an
earlier hit. -/
theorem c1_get_first_component_wins (t : TreeState) (key : Bytes) :
    Tree.get t key =
      match firstHit t key with
      | none => none
      | some item => if item.is_tombstone then none else some item.value := by
  unfold Tree.get Tree.get_internal_entry firstHit componentsOf
  rw [List.findSome?_cons]
  cases h₁ : getNewest t.active key with
  | some item =>
    by_cases ht : item.is_tombstone <;> simp [ignore_tombstone_value, ht]
  | none =>
    cases h₂ : t.immutable_memtables.reverse.findSome? (fun p => getNewest p.2 key) with
    | some item =>
      have hr : ((t.immutable_memtables.reverse.map (fun p => p.2)) ++ t.segments).findSome?
          (fun c => getNewest c key) = some item := by
        apply findSome?_append_some
        rw [findSome?_map]
        exact h₂
      rw [hr]
      by_cases ht : item.is_tombstone <;> simp [ignore_tombstone_value, ht]
    | none =>
      have hr : ((t.immutable_memtables.reverse.map (fun p => p.2)) ++ t.segments).findSome?
          (fun c => getNewest c key) = t.segments.findSome? (fun s => getNewest s key) := by
        apply findSome?_append_none
        rw [findSome?_map]
        exact h₂
      rw [hr]
      cases h₃ : t.segments.findSome? (fun s => getNewest s key) with
      | some item =>
        by_cases ht : item.is_tombstone <;> simp [ignore_tombstone_value, ht]
      | none => simp

/-! ### C8: `remove` refines `insert` -/

/-- C8.  `Tree::remove` builds and appends exactly the record that
`Tree::insert` would build for the same key with an empty value, except that
`is_tombstone` is true: both assign `seqno = lsn.fetch_add(1)` and pass the
record through the same `append_entry` path (journal write, memtable insert,
size-counter increment, possible flush trigger).  The conjuncts state that
both operations are the `append_entry` pipeline on the post-`fetch_add`
state, that the two records differ only in the tombstone flag, and that the
resulting size counter and flush decision coincide. -/
theorem c8_remove_is_insert_with_tombstone (t : TreeState) (key : Bytes) :
    Tree.remove t key =
      Tree.append_entry { t with lsn := t.lsn + 1 }
        { Value.new key [] false t.lsn with is_tombstone := true } ∧
    (∀ value, Tree.insert t key value =
      Tree.append_entry { t with lsn := t.lsn + 1 } (Value.new key value false t.lsn)) ∧
    (Tree.remove t key).1.lsn = (Tree.insert t key []).1.lsn ∧
    (Tree.remove t key).1.journal = t.journal ++ [Value.new key [] true t.lsn] ∧
    (Tree.insert t key []).1.journal = t.journal ++ [Value.new key [] false t.lsn] ∧
    (Tree.remove t key).1.active = t.active ++ [Value.new key [] true t.lsn] ∧
    (Tree.remove t key).1.active_journal_size_bytes
      = (Tree.insert t key []).1.active_journal_size_bytes ∧
    (Tree.remove t key).2 = (Tree.insert t key []).2 := by
  refine ⟨rfl, fun value => rfl, rfl, rfl, rfl, rfl, rfl, rfl⟩

/-! ### C2: the `lsn` counter after recovery -/

/-- `Tree::recover` from `tree.rs` lines 479-503: the recovered `lsn` is the
maximum seqno found in the recovered active memtable (`unwrap_or(0)` when it
is empty), then `max`-ed with the greatest `metadata.seqnos.1` over the
recovered segments (`unwrap_or(0)` when there are none). -/
def recoverLsn (memtableItems : List Value) (segmentMaxSeqnos : List Nat) : Nat :=
  let lsn := (memtableItems.map (fun x => x.seqno)).foldr Nat.max 0
  Nat.max lsn (segmentMaxSeqnos.foldr Nat.max 0)

/-- `Tree::recover` from `tree.rs` lines 462-537, restricted to the fields of
the model: the recovered journal backs the recovered active memtable, the
immutable set starts empty, `lsn` is set by `recoverLsn`, and the byte
counter restarts at zero (`AtomicU32::default()`).  A segment's
`metadata.seqnos.1` is its greatest seqno (spec invariant
`metadata.seqnos.1 >= metadata.seqnos.0`). -/
def Tree.recoverState (max_memtable_size : Nat) (memtableItems : List Value)
    (segments : List (List Value)) : TreeState :=
  { lsn := recoverLsn memtableItems
      (segments.map (fun s => (s.map (fun v => v.seqno)).foldr Nat.max 0))
    journal := memtableItems
    active := memtableItems
    immutable_memtables := []
    segments := segments
    active_journal_size_bytes := 0
    max_memtable_size := max_memtable_size }

/-- C2 (code bug).  After recovering a tree whose journal holds one
acknowledged record with seqno 0, the recovered `lsn` is 0 — not strictly
greater than the acknowledged seqno 0 — and the next `insert` assigns
seqno 0 a second time, so the journal ends up with two records carrying the
same seqno.  The claim (and the spec invariant it quotes) requires the
recovered `lsn` to be strictly greater than every acknowledged seqno. -/
theorem c2_recovered_lsn_collides_with_acked_seqno :
    ((Tree.insert (Tree.create_new 1000) [1] [2]).1.journal
        = [Value.new [1] [2] false 0]) ∧
    (Tree.recoverState 1000 [Value.new [1] [2] false 0] []).lsn = 0 ∧
    ¬ (∀ s ∈ ((Tree.recoverState 1000 [Value.new [1] [2] false 0] []).active.map
          (fun v => v.seqno)),
        s < (Tree.recoverState 1000 [Value.new [1] [2] false 0] []).lsn) ∧
    ((Tree.insert (Tree.recoverState 1000 [Value.new [1] [2] false 0] []) [3] [4]).1.journal.map
        (fun v => v.seqno)) = [0, 0] := by
  decide

/-! ### CAS (C3 and C9) -/

/-- `CompareAndSwapError` from `tree.rs` lines 27-33: `prev` is documented as
"the value currently in the tree that caused the CAS error", `next` as "the
value that was proposed". -/
structure CompareAndSwapError where
  prev : Option Bytes
  next : Option Bytes
deriving DecidableEq, Repr

instance exceptDecEq {ε α : Type} [DecidableEq ε] [DecidableEq α] :
    DecidableEq (Except ε α) := fun a b =>
  match a, b with
  | Except.ok x, Except.ok y =>
    if h : x = y then isTrue (by rw [h])
    else isFalse (fun hh => h (by injection hh))
  | Except.ok _, Except.error _ => isFalse (fun hh => Except.noConfusion hh)
  | Except.error _, Except.ok _ => isFalse (fun hh => Except.noConfusion hh)
  | Except.error e, Except.error f =>
    if h : e = f then isTrue (by rw [h])
    else isFalse (fun hh => h (by injection hh))

/-- `Tree::compare_and_swap` from `tree.rs` lines 957-1023, transcribed
branch by branch.  The I/O `Result` wrapper is dropped (the model has no
I/O errors); the inner `CompareAndSwapResult` is the `Except` value. -/
def Tree.compare_and_swap (t : TreeState) (key : Bytes)
    (expected next : Option Bytes) : TreeState × Except CompareAndSwapError Unit :=
  match Tree.get t key with
  | some current_value =>
    match expected with
    | some expected_value =>
      if current_value ≠ expected_value then
        (t, Except.error ⟨some current_value, next⟩)
      else
        match next with
        | some next_value => ((Tree.insert t key next_value).1, Except.ok ())
        | none => ((Tree.remove t key).1, Except.ok ())
    | none =>
      -- source comment says "We expected Some but got None"; this branch is
      -- reached when a value is present but none was expected
      (t, Except.error ⟨none, next⟩)
  | none =>
    match expected with
    | some _ => (t, Except.error ⟨none, next⟩)
    | none =>
      match next with
      | some next_value => ((Tree.insert t key next_value).1, Except.ok ())
      | none => ((Tree.remove t key).1, Except.ok ())

/-- C3 (code bug).  With the key present (current value `[98]`) and
`expected = none`, `compare_and_swap` fails but reports `prev = none`
instead of the current value `some [98]` that caused the error, although the
claim — and the doc comment on the `prev` field itself — says `prev` carries
the value currently in the tree (`Some` of it when the key is present). -/
theorem c3_cas_prev_none_despite_present_value :
    (Tree.get { Tree.create_new 1000 with
        lsn := 1, journal := [Value.new [120] [98] false 0],
        active := [Value.new [120] [98] false 0] } [120] = some [98]) ∧
    ((Tree.compare_and_swap { Tree.create_new 1000 with
        lsn := 1, journal := [Value.new [120] [98] false 0],
        active := [Value.new [120] [98] false 0] } [120] none (some [99])).2
      = Except.error ⟨none, some [99]⟩) ∧
    (⟨none, some [99]⟩ : CompareAndSwapError) ≠ ⟨some [98], some [99]⟩ := by
  decide

/-- C9.  For a key absent from the tree, `compare_and_swap(key, None, None)`
succeeds and is not a no-op: it runs `Tree::remove`, appending a tombstone
record for the key to the journal and memtable and consuming a fresh
sequence number. -/
theorem c9_cas_absent_none_none_removes (t : TreeState) (key : Bytes)
    (h : Tree.get t key = none) :
    Tree.compare_and_swap t key none none = ((Tree.remove t key).1, Except.ok ()) ∧
    (Tree.compare_and_swap t key none none).1.journal
      = t.journal ++ [Value.new key [] true t.lsn] ∧
    (Tree.compare_and_swap t key none none).1.active
      = t.active ++ [Value.new key [] true t.lsn] ∧
    (Tree.compare_and_swap t key none none).1.lsn = t.lsn + 1 := by
  unfold Tree.compare_and_swap
  rw [h]
  exact ⟨rfl, rfl, rfl, rfl⟩

/-- Witness for C9 at a concrete input: the fresh tree does not contain key
`[7]`, and the CAS with both arguments `none` appends a tombstone with
seqno 0 and bumps `lsn` to 1. -/
theorem c9_cas_absent_none_none_removes_witness :
    Tree.compare_and_swap (Tree.create_new 64) [7] none none
      = ((Tree.remove (Tree.create_new 64) [7]).1, Except.ok ()) ∧
    (Tree.compare_and_swap (Tree.create_new 64) [7] none none).1.journal
      = [] ++ [Value.new [7] [] true 0] ∧
    (Tree.compare_and_swap (Tree.create_new 64) [7] none none).1.active
      = [] ++ [Value.new [7] [] true 0] ∧
    (Tree.compare_and_swap (Tree.create_new 64) [7] none none).1.lsn = 0 + 1 :=
  c9_cas_absent_none_none_removes (Tree.create_new 64) [7] rfl

/-! ### C7: recovery of segment folders and journal directories -/

/-- A journal directory as `Tree::recover_active_journal` sees it: its folder
name (`id`), its on-disk byte size, whether a `.flush` marker file exists,
and the records that `Journal::recover` replays from it.  `Journal::recover`
is not under `src/`; modelled from the spec (§4.5): replay yields the
memtable contents. -/
structure JournalDir where
  id : Nat
  size : Nat
  hasFlushMarker : Bool
  items : List Value
deriving DecidableEq, Repr

/-- The observable outcome of `Tree::recover_active_journal`: the journal
kept active (with its replayed memtable), the final level manifest, the
segments written from orphaned journals, and the journal directories
removed. -/
structure RecoverJournalsResult where
  active : Option (Nat × List Value)
  manifest : List Nat
  segmentsWritten : List (Nat × List Value)
  removedJournals : List Nat
deriving DecidableEq, Repr

/-- The loop of `Tree::recover_active_journal` (`tree.rs` lines 366-452),
one journal directory per step:
empty directories are removed; a non-empty directory without `.flush`
becomes the active journal when its size is under `max_memtable_size`
(a second one panics — modelled as `Except.error`); otherwise (marked
`.flush`, or too large) the records are replayed and, when the manifest
does not already contain the id and the replayed memtable is non-empty,
written as a segment whose id is added to the manifest; in every such case
the journal directory is removed afterwards.  The segment writer is not
under `src/`; modelled from the spec (§4.4): it emits the memtable items
and reports `item_count`. -/
def recoverJournalsGo (maxSize : Nat) :
    List JournalDir → Option (Nat × List Value) → List Nat →
    List (Nat × List Value) → List Nat → Except String RecoverJournalsResult
  | [], act, man, wr, rm => Except.ok ⟨act, man, wr, rm⟩
  | j :: rest, act, man, wr, rm =>
    if j.size = 0 then
      recoverJournalsGo maxSize rest act man wr (rm ++ [j.id])
    else if j.hasFlushMarker = false ∧ act.isSome then
      Except.error "second active journal found"
    else if j.hasFlushMarker = false ∧ j.size < maxSize then
      recoverJournalsGo maxSize rest (some (j.id, j.items)) man wr rm
    else if j.id ∈ man then
      recoverJournalsGo maxSize rest act man wr (rm ++ [j.id])
    else if j.items = [] then
      recoverJournalsGo maxSize rest act man wr (rm ++ [j.id])
    else
      recoverJournalsGo maxSize rest act (man ++ [j.id]) (wr ++ [(j.id, j.items)]) (rm ++ [j.id])

/-- `Tree::recover_active_journal` from `tree.rs` lines 359-455: fold the
loop over the journal directories starting from the persisted manifest. -/
def Tree.recover_active_journal (maxSize : Nat) (manifest : List Nat)
    (journals : List JournalDir) : Except String RecoverJournalsResult :=
  recoverJournalsGo maxSize journals none manifest [] []

/-- `Tree::recover_segments` from `tree.rs` lines 309-357: a segment folder
whose id is listed in the manifest is recovered, every other folder is
deleted.  Returns `(recovered ids, deleted ids)`.  (The source also panics
when a listed segment folder is missing; that path changes no folder and is
outside the claim.) -/
def Tree.recover_segments (manifestIds : List Nat) (folders : List Nat) :
    List Nat × List Nat :=
  folders.partition (fun id => id ∈ manifestIds)

/-- C7 counterexample.  A non-empty journal directory with a `.flush` marker
whose id `7` is already listed in the manifest is removed without being
replayed into a segment: `segmentsWritten` stays empty and the manifest is
unchanged, while the claim as stated says its records are written out as a
segment that is added to the manifest. -/
theorem c7_orphan_journal_in_manifest_not_rewritten :
    (Tree.recover_active_journal 100 [7]
        [⟨7, 50, true, [Value.new [1] [2] false 0]⟩]
      = Except.ok ⟨none, [7], [], [7]⟩) ∧
    ¬ (50 = 0) ∧
    (7, [Value.new [1] [2] false 0]) ∉
      (⟨none, [7], [], [7]⟩ : RecoverJournalsResult).segmentsWritten := by
  decide

theorem go_mono (maxSize : Nat) (js : List JournalDir) (act : Option (Nat × List Value))
    (man : List Nat) (wr : List (Nat × List Value)) (rm : List Nat)
    (r : RecoverJournalsResult)
    (h : recoverJournalsGo maxSize js act man wr rm = Except.ok r) :
    (∀ x ∈ rm, x ∈ r.removedJournals) ∧ (∀ x ∈ wr, x ∈ r.segmentsWritten) ∧
    (∀ x ∈ man, x ∈ r.manifest) ∧ (act.isSome = true → r.active = act) := by
  induction js generalizing act man wr rm r with
  | nil =>
    simp only [recoverJournalsGo] at h
    injection h with h'
    subst h'
    exact ⟨fun x hx => hx, fun x hx => hx, fun x hx => hx, fun _ => rfl⟩
  | cons j rest ih =>
    simp only [recoverJournalsGo] at h
    split_ifs at h with h1 h2 h3 h4 h5
    · obtain ⟨m1, m2, m3, m4⟩ := ih _ _ _ _ _ h
      exact ⟨fun x hx => m1 x (List.mem_append_left _ hx), m2, m3, m4⟩
    · obtain ⟨m1, m2, m3, m4⟩ := ih _ _ _ _ _ h
      exact ⟨m1, m2, m3, fun hs => absurd ⟨h3.1, hs⟩ h2⟩
    · obtain ⟨m1, m2, m3, m4⟩ := ih _ _ _ _ _ h
      exact ⟨fun x hx => m1 x (List.mem_append_left _ hx), m2, m3, m4⟩
    · obtain ⟨m1, m2, m3, m4⟩ := ih _ _ _ _ _ h
      exact ⟨fun x hx => m1 x (List.mem_append_left _ hx), m2, m3, m4⟩
    · obtain ⟨m1, m2, m3, m4⟩ := ih _ _ _ _ _ h
      exact ⟨fun x hx => m1 x (List.mem_append_left _ hx),
        fun x hx => m2 x (List.mem_append_left _ hx),
        fun x hx => m3 x (List.mem_append_left _ hx), m4⟩

theorem go_no_second (maxSize : Nat) (js : List JournalDir)
    (act : Option (Nat × List Value)) (man : List Nat) (wr : List (Nat × List Value))
    (rm : List Nat) (r : RecoverJournalsResult)
    (h : recoverJournalsGo maxSize js act man wr rm = Except.ok r)
    (hs : act.isSome = true) :
    ∀ j ∈ js, j.size ≠ 0 → j.hasFlushMarker = true := by
  induction js generalizing act man wr rm r with
  | nil => intro j hj; simp at hj
  | cons j rest ih =>
    intro j' hj' hsz
    simp only [recoverJournalsGo] at h
    split_ifs at h with h1 h2 h3 h4 h5
    · rcases List.mem_cons.mp hj' with rfl | hmem
      · exact absurd h1 hsz
      · exact ih _ _ _ _ _ h hs j' hmem hsz
    · exact absurd ⟨h3.1, hs⟩ h2
    all_goals {
      rcases List.mem_cons.mp hj' with rfl | hmem
      · cases hm : j'.hasFlushMarker
        · exact absurd ⟨hm, hs⟩ h2
        · rfl
      · exact ih _ _ _ _ _ h hs j' hmem hsz
    }

theorem go_size0 (maxSize : Nat) (js : List JournalDir)
    (act : Option (Nat × List Value)) (man : List Nat) (wr : List (Nat × List Value))
    (rm : List Nat) (r : RecoverJournalsResult)
    (h : recoverJournalsGo maxSize js act man wr rm = Except.ok r) :
    ∀ j ∈ js, j.size = 0 → j.id ∈ r.removedJournals := by
  induction js generalizing act man wr rm r with
  | nil => intro j hj; simp at hj
  | cons j rest ih =>
    intro j' hj' hsz
    simp only [recoverJournalsGo] at h
    split_ifs at h with h1 h2 h3 h4 h5
    · rcases List.mem_cons.mp hj' with rfl | hmem
      · exact (go_mono _ _ _ _ _ _ _ h).1 j'.id (List.mem_append_right _ (by simp))
      · exact ih _ _ _ _ _ h j' hmem hsz
    all_goals {
      rcases List.mem_cons.mp hj' with rfl | hmem
      · exact absurd hsz h1
      · exact ih _ _ _ _ _ h j' hmem hsz
    }

theorem go_active (maxSize : Nat) (js : List JournalDir)
    (act : Option (Nat × List Value)) (man : List Nat) (wr : List (Nat × List Value))
    (rm : List Nat) (r : RecoverJournalsResult)
    (h : recoverJournalsGo maxSize js act man wr rm = Except.ok r) :
    ∀ j ∈ js, j.size ≠ 0 → j.hasFlushMarker = false → j.size < maxSize →
      r.active = some (j.id, j.items) := by
  induction js generalizing act man wr rm r with
  | nil => intro j hj; simp at hj
  | cons j rest ih =>
    intro j' hj' hsz hmf hsm
    simp only [recoverJournalsGo] at h
    split_ifs at h with h1 h2 h3 h4 h5
    · rcases List.mem_cons.mp hj' with rfl | hmem
      · exact absurd h1 hsz
      · exact ih _ _ _ _ _ h j' hmem hsz hmf hsm
    · rcases List.mem_cons.mp hj' with rfl | hmem
      · exact (go_mono _ _ _ _ _ _ _ h).2.2.2 rfl
      · have hmt := go_no_second _ _ _ _ _ _ _ h rfl j' hmem hsz
        simp [hmf] at hmt
    all_goals {
      rcases List.mem_cons.mp hj' with rfl | hmem
      · exact absurd ⟨hmf, hsm⟩ h3
      · exact ih _ _ _ _ _ h j' hmem hsz hmf hsm
    }

theorem go_flush (maxSize : Nat) (js : List JournalDir)
    (act : Option (Nat × List Value)) (man : List Nat) (wr : List (Nat × List Value))
    (rm : List Nat) (r : RecoverJournalsResult)
    (hnd : (js.map JournalDir.id).Nodup)
    (h : recoverJournalsGo maxSize js act man wr rm = Except.ok r) :
    ∀ j ∈ js, j.size ≠ 0 → (j.hasFlushMarker = true ∨ maxSize ≤ j.size) →
      j.id ∈ r.removedJournals ∧
      (j.id ∉ man → j.items ≠ [] →
        ((j.id, j.items) ∈ r.segmentsWritten ∧ j.id ∈ r.manifest)) := by
  induction js generalizing act man wr rm r with
  | nil => intro j hj; simp at hj
  | cons j rest ih =>
    have hhead : j.id ∉ rest.map JournalDir.id := (List.nodup_cons.mp hnd).1
    have htail : (rest.map JournalDir.id).Nodup := (List.nodup_cons.mp hnd).2
    intro j' hj' hsz hcond
    simp only [recoverJournalsGo] at h
    split_ifs at h with h1 h2 h3 h4 h5
    · rcases List.mem_cons.mp hj' with rfl | hmem
      · exact absurd h1 hsz
      · exact ih _ _ _ _ _ htail h j' hmem hsz hcond
    · rcases List.mem_cons.mp hj' with rfl | hmem
      · rcases hcond with hmt | hms
        · exact absurd hmt (by simp [h3.1])
        · exact absurd hms (not_le.mpr h3.2)
      · exact ih _ _ _ _ _ htail h j' hmem hsz hcond
    · rcases List.mem_cons.mp hj' with rfl | hmem
      · exact ⟨(go_mono _ _ _ _ _ _ _ h).1 j'.id (List.mem_append_right _ (by simp)),
          fun hnm _ => absurd h4 hnm⟩
      · exact ih _ _ _ _ _ htail h j' hmem hsz hcond
    · rcases List.mem_cons.mp hj' with rfl | hmem
      · exact ⟨(go_mono _ _ _ _ _ _ _ h).1 j'.id (List.mem_append_right _ (by simp)),
          fun _ hne => absurd h5 hne⟩
      · exact ih _ _ _ _ _ htail h j' hmem hsz hcond
    · rcases List.mem_cons.mp hj' with rfl | hmem
      · obtain ⟨m1, m2, m3, _⟩ := go_mono _ _ _ _ _ _ _ h
        exact ⟨m1 j'.id (List.mem_append_right _ (by simp)),
          fun _ _ => ⟨m2 _ (List.mem_append_right _ (by simp)),
            m3 _ (List.mem_append_right _ (by simp))⟩⟩
      · have hne : j'.id ≠ j.id := by
          intro he
          exact hhead (he ▸ List.mem_map_of_mem JournalDir.id hmem)
        obtain ⟨hrem, hrest⟩ := ih _ _ _ _ _ htail h j' hmem hsz hcond
        refine ⟨hrem, fun hnm hni => hrest ?_ hni⟩
        simp only [List.mem_append, List.mem_singleton]
        rintro (hin | he)
        · exact hnm hin
        · exact hne he

theorem c7_recovery_dispatch (manifestIds folders : List Nat) (maxSize : Nat)
    (manifest0 : List Nat) (journals : List JournalDir) (r : RecoverJournalsResult)
    (hnd : (journals.map JournalDir.id).Nodup)
    (hok : Tree.recover_active_journal maxSize manifest0 journals = Except.ok r) :
    (∀ d ∈ folders, d ∉ manifestIds → d ∈ (Tree.recover_segments manifestIds folders).2) ∧
    (∀ j ∈ journals, j.size = 0 → j.id ∈ r.removedJournals) ∧
    (∀ j ∈ journals, j.size ≠ 0 → j.hasFlushMarker = false → j.size < maxSize →
        r.active = some (j.id, j.items)) ∧
    (∀ j ∈ journals, j.size ≠ 0 → (j.hasFlushMarker = true ∨ maxSize ≤ j.size) →
        j.id ∈ r.removedJournals ∧
        (j.id ∉ manifest0 → j.items ≠ [] →
          ((j.id, j.items) ∈ r.segmentsWritten ∧ j.id ∈ r.manifest))) := by
  refine ⟨?_, go_size0 _ _ _ _ _ _ _ hok, go_active _ _ _ _ _ _ _ hok,
    go_flush _ _ _ _ _ _ _ hnd hok⟩
  intro d hd hnm
  simp only [Tree.recover_segments, List.partition_eq_filter_filter]
  simp [List.mem_filter, hd, hnm]

/-- Witness for C7 at a concrete input: folder 2 is not in the manifest and
is deleted; journal 5 (non-empty, unmarked, small) becomes active; journal 9
(empty) is removed. -/
theorem c7_recovery_dispatch_witness :
    (∀ d ∈ [1, 2], d ∉ [1] → d ∈ (Tree.recover_segments [1] [1, 2]).2) ∧
    (∀ j ∈ [(⟨5, 3, false, [Value.new [1] [2] false 0]⟩ : JournalDir), ⟨9, 0, false, []⟩],
        j.size = 0 →
        j.id ∈ (⟨some (5, [Value.new [1] [2] false 0]), [], [], [9]⟩ :
          RecoverJournalsResult).removedJournals) ∧
    (∀ j ∈ [(⟨5, 3, false, [Value.new [1] [2] false 0]⟩ : JournalDir), ⟨9, 0, false, []⟩],
        j.size ≠ 0 → j.hasFlushMarker = false → j.size < 10 →
        (⟨some (5, [Value.new [1] [2] false 0]), [], [], [9]⟩ :
          RecoverJournalsResult).active = some (j.id, j.items)) ∧
    (∀ j ∈ [(⟨5, 3, false, [Value.new [1] [2] false 0]⟩ : JournalDir), ⟨9, 0, false, []⟩],
        j.size ≠ 0 → (j.hasFlushMarker = true ∨ 10 ≤ j.size) →
        j.id ∈ (⟨some (5, [Value.new [1] [2] false 0]), [], [], [9]⟩ :
          RecoverJournalsResult).removedJournals ∧
        (j.id ∉ ([] : List Nat) → j.items ≠ [] →
          ((j.id, j.items) ∈ (⟨some (5, [Value.new [1] [2] false 0]), [], [], [9]⟩ :
              RecoverJournalsResult).segmentsWritten ∧
            j.id ∈ (⟨some (5, [Value.new [1] [2] false 0]), [], [], [9]⟩ :
              RecoverJournalsResult).manifest))) :=
  c7_recovery_dispatch [1] [1, 2] 10 []
    [⟨5, 3, false, [Value.new [1] [2] false 0]⟩, ⟨9, 0, false, []⟩]
    ⟨some (5, [Value.new [1] [2] false 0]), [], [], [9]⟩
    (by decide) (by decide)

/-! ### Partitioned block index (`src/segment/index/mod.rs`) -/

/-- `IndexEntry` from `segment/index/mod.rs` lines 24-33: points to a block
on file; `start_key` is the key of the first item in that block. -/
structure IndexEntry where
  offset : Nat
  size : Nat
  start_key : Bytes
deriving DecidableEq, Repr

/-- `IndexBlock = DiskBlock<IndexEntry>`; only the `items` field matters for
the navigation operations (the CRC field of `DiskBlock` is not used by
them). -/
structure IndexBlock where
  items : List IndexEntry
deriving DecidableEq, Repr

/-- `DiskBlockReference` from `disk_block_index.rs` (not under `src/`):
offset and size of an index block in the blocks file. -/
structure DiskBlockReference where
  offset : Nat
  size : Nat
deriving DecidableEq, Repr

/-- Modelled from the spec: `DiskBlockIndex` (the top-level index) is not
under `src/`; the spec describes it as a sorted map `user_key → (offset,
size)` listing the index blocks (§4.3).  It is modelled as its entry list in
ascending key order (the iteration order of the `BTreeMap`); the sortedness
is carried as an explicit hypothesis by the theorems that need it. -/
structure DiskBlockIndex where
  entries : List (Bytes × DiskBlockReference)
deriving DecidableEq, Repr

/-- Rust `key.starts_with(p)`: `p` is a prefix of `key`. -/
def startsWithBytes : Bytes → Bytes → Bool
  | [], _ => true
  | _ :: _, [] => false
  | p :: ps, k :: ks => p == k && startsWithBytes ps ks

/-- Modelled from the spec: the lower-bound predecessor on the top-level
sorted map — the entry with the greatest key that is `≤ key` (§4.3 step 1);
on the ascending entry list this is the last entry with key `≤ key`. -/
def DiskBlockIndex.get_lower_bound_block_info (ix : DiskBlockIndex) (key : Bytes) :
    Option (Bytes × DiskBlockReference) :=
  ix.entries.reverse.find? (fun e => decide (e.1 ≤ key))

/-- Modelled from the spec: the next index block on the top-level sorted
map — the first entry with key strictly greater than `key` (§4.3). -/
def DiskBlockIndex.get_next_block_key (ix : DiskBlockIndex) (key : Bytes) :
    Option (Bytes × DiskBlockReference) :=
  ix.entries.find? (fun e => decide (key < e.1))

/-- Modelled from the spec: the first top-level entry whose key is
lexicographically greater than the argument and does not start with it
(§4.3, `prefix_upper_bound`). -/
def DiskBlockIndex.get_prefix_upper_bound (ix : DiskBlockIndex) (key : Bytes) :
    Option (Bytes × DiskBlockReference) :=
  ix.entries.find? (fun e => decide (key < e.1) && !(startsWithBytes key e.1))

/-- `IndexBlock::get_next_block_info` from `segment/index/mod.rs` lines
113-115: the first item with `start_key > key`. -/
def IndexBlock.get_next_block_info (b : IndexBlock) (key : Bytes) : Option IndexEntry :=
  b.items.find? (fun x => decide (key < x.start_key))

/-- `IndexBlock::get_lower_bound_block_info` from `segment/index/mod.rs`
lines 118-120: the last item with `start_key ≤ key` (`iter().rev().find`). -/
def IndexBlock.get_lower_bound_block_info (b : IndexBlock) (key : Bytes) :
    Option IndexEntry :=
  b.items.reverse.find? (fun x => decide (x.start_key ≤ key))

/-- `MetaIndex` from `segment/index/mod.rs` lines 88-106, restricted to the
fields the navigation operations read: the top-level index and the contents
of the index block stored at each offset of the blocks file.  `blockAt`
models `load_index_block` (cache hit and disk read return the same block
contents, so the load is a pure function of the block reference). -/
structure MetaIndex where
  index : DiskBlockIndex
  blockAt : Nat → IndexBlock

/-- `MetaIndex::load_index_block` from `segment/index/mod.rs` lines 248-283. -/
def MetaIndex.load_index_block (m : MetaIndex) (block_ref : DiskBlockReference) :
    IndexBlock :=
  m.blockAt block_ref.offset

/-- `MetaIndex::get_upper_bound_block_info` from `segment/index/mod.rs`
lines 133-157: top-level lower bound, then the covering index block's first
item past the key; when the covering block has none, the top-level next
entry is returned directly as an `IndexEntry` built from the top-level key
and the index block's own offset and size (the next index block is not
loaded). -/
def MetaIndex.get_upper_bound_block_info (m : MetaIndex) (key : Bytes) :
    Option IndexEntry :=
  match m.index.get_lower_bound_block_info key with
  | none => none
  | some (_, block_ref) =>
    let index_block := m.load_index_block block_ref
    match index_block.get_next_block_info key with
    | some block => some block
    | none =>
      match m.index.get_next_block_key key with
      | none => none
      | some (block_key, next_ref) =>
        some ⟨next_ref.offset, next_ref.size, block_key⟩

/-- `MetaIndex::get_lower_bound_block_info` from `segment/index/mod.rs`
lines 160-167. -/
def MetaIndex.get_lower_bound_block_info (m : MetaIndex) (key : Bytes) :
    Option IndexEntry :=
  match m.index.get_lower_bound_block_info key with
  | none => none
  | some (_, block_ref) =>
    (m.load_index_block block_ref).get_lower_bound_block_info key

/-- `MetaIndex::get_prefix_upper_bound` from `segment/index/mod.rs` lines
124-131: top-level prefix upper bound, then the first item of that index
block. -/
def MetaIndex.get_prefix_upper_bound (m : MetaIndex) (key : Bytes) :
    Option IndexEntry :=
  match m.index.get_prefix_upper_bound key with
  | none => none
  | some (_, block_ref) => (m.load_index_block block_ref).items.head?

/-- `MetaIndex::get_latest` from `segment/index/mod.rs` lines 285-295,
transcribed separately from `get_lower_bound_block_info`. -/
def MetaIndex.get_latest (m : MetaIndex) (key : Bytes) : Option IndexEntry :=
  match m.index.get_lower_bound_block_info key with
  | none => none
  | some (_, index_block_ref) =>
    (m.load_index_block index_block_ref).get_lower_bound_block_info key

/-- C10.  `MetaIndex::get_latest` and `MetaIndex::get_lower_bound_block_info`
are the same pipeline: top-level lower bound, load that index block, inner
lower bound. -/
theorem c10_get_latest_eq_get_lower_bound (m : MetaIndex) (key : Bytes) :
    MetaIndex.get_latest m key = MetaIndex.get_lower_bound_block_info m key := rfl

/-! ### Specification-side view of the index (data blocks in segment order) -/

/-- All data-block entries of the segment, in segment order: the items of
each index block, following the top-level entries in order. -/
def allDataEntries (m : MetaIndex) : List IndexEntry :=
  (m.index.entries.map (fun e => (m.blockAt e.2.offset).items)).flatten

/-- The claim's reading of `upper_bound(K)`: the entry of the first data
block whose `start_key` is greater than `K`, with that data block's own
offset and size. -/
def upperBoundSpec (m : MetaIndex) (key : Bytes) : Option IndexEntry :=
  (allDataEntries m).find? (fun e => decide (key < e.start_key))

/-- The claim's reading of `prefix_upper_bound(P)`: the entry of the first
data block whose `start_key` is greater than `P` and does not start with
`P`. -/
def prefixUpperBoundSpec (m : MetaIndex) (p : Bytes) : Option IndexEntry :=
  (allDataEntries m).find?
    (fun e => decide (p < e.start_key) && !(startsWithBytes p e.start_key))

/-- Every top-level entry points at a non-empty index block whose first item
has the top-level key as its start key (the layout invariant of the
partitioned index: an index block is keyed by its first data block's start
key). -/
@[reducible]
def MetaIndex.aligned (m : MetaIndex) : Prop :=
  ∀ e ∈ m.index.entries,
    ((m.blockAt e.2.offset).items.head?.map (fun x => x.start_key)) = some e.1

/-- The top-level keys are strictly ascending. -/
@[reducible]
def MetaIndex.topSorted (m : MetaIndex) : Prop :=
  (m.index.entries.map (fun e => e.1)).Pairwise (· < ·)

/-- The start keys of all data blocks are strictly ascending in segment
order. -/
@[reducible]
def MetaIndex.flatSorted (m : MetaIndex) : Prop :=
  ((allDataEntries m).map (fun e => e.start_key)).Pairwise (· < ·)

/-- C4 counterexample.  Two index blocks with data-block start keys
`[0], [1]` and `[2], [3]`; looking up the upper bound of `[1]` crosses the
index-block boundary, and the code returns the top-level entry of the
second index block — offset 100 and size 50 of the index block itself —
instead of loading it and returning its first data-block entry (offset
1020, size 10). -/
theorem c4_upper_bound_returns_index_block_ref :
    (MetaIndex.get_upper_bound_block_info
        { index := ⟨[([0], ⟨0, 100⟩), ([2], ⟨100, 50⟩)]⟩
          blockAt := fun o =>
            if o = 0 then ⟨[⟨1000, 10, [0]⟩, ⟨1010, 10, [1]⟩]⟩
            else ⟨[⟨1020, 10, [2]⟩, ⟨1030, 10, [3]⟩]⟩ } [1]
      = some ⟨100, 50, [2]⟩) ∧
    (upperBoundSpec
        { index := ⟨[([0], ⟨0, 100⟩), ([2], ⟨100, 50⟩)]⟩
          blockAt := fun o =>
            if o = 0 then ⟨[⟨1000, 10, [0]⟩, ⟨1010, 10, [1]⟩]⟩
            else ⟨[⟨1020, 10, [2]⟩, ⟨1030, 10, [3]⟩]⟩ } [1]
      = some ⟨1020, 10, [2]⟩) ∧
    (some (⟨100, 50, [2]⟩ : IndexEntry) ≠ some ⟨1020, 10, [2]⟩) := by
  decide

/-- C6 counterexample.  With prefix `P = [1,2]`, the first index block holds
data blocks keyed `[1,2,1]` and `[2]`, the second holds `[3]`.  The first
data block whose start key is greater than `P` and does not start with `P`
is `[2]` (offset 110), but it sits inside the index block whose top-level
key `[1,2,1]` starts with `P`; the code skips that whole index block and
returns the first entry of the next one, `[3]` (offset 120). -/
theorem c6_prefix_upper_bound_skips_qualifying_block :
    (MetaIndex.get_prefix_upper_bound
        { index := ⟨[([1, 2, 1], ⟨0, 100⟩), ([3], ⟨100, 50⟩)]⟩
          blockAt := fun o =>
            if o = 0 then ⟨[⟨100, 10, [1, 2, 1]⟩, ⟨110, 10, [2]⟩]⟩
            else ⟨[⟨120, 10, [3]⟩]⟩ } [1, 2]
      = some ⟨120, 10, [3]⟩) ∧
    (prefixUpperBoundSpec
        { index := ⟨[([1, 2, 1], ⟨0, 100⟩), ([3], ⟨100, 50⟩)]⟩
          blockAt := fun o =>
            if o = 0 then ⟨[⟨100, 10, [1, 2, 1]⟩, ⟨110, 10, [2]⟩]⟩
            else ⟨[⟨120, 10, [3]⟩]⟩ } [1, 2]
      = some ⟨110, 10, [2]⟩) ∧
    (some (⟨120, 10, [3]⟩ : IndexEntry) ≠ some ⟨110, 10, [2]⟩) := by
  decide

/-! ### C5: lower bound = greatest start key at or below the lookup key -/

/-- One step of the explicit greatest-key-below selection. -/
def chooseStep {α : Type} (keyOf : α → Bytes) (K : Bytes) (best : Option α) (x : α) :
    Option α :=
  if keyOf x ≤ K then
    match best with
    | none => some x
    | some b => if keyOf b ≤ keyOf x then some x else some b
  else best

/-- The element with the greatest key that is `≤ K` (the spec wording of a
lower-bound predecessor), computed by an explicit maximum selection rather
than by position. -/
def chooseGreatestLe {α : Type} (keyOf : α → Bytes) (K : Bytes) (l : List α) : Option α :=
  l.foldl (chooseStep keyOf K) none

/-- The spec reading of the lower-bound lookup (C5): the top-level entry
with the greatest key `≤ K`, then within its index block the entry with the
greatest start key `≤ K`. -/
def lowerBoundSpec (m : MetaIndex) (key : Bytes) : Option IndexEntry :=
  match chooseGreatestLe (fun e => e.1) key m.index.entries with
  | none => none
  | some tp => chooseGreatestLe (fun x => x.start_key) key (m.blockAt tp.2.offset).items

theorem chooseStep_foldl_mem {α : Type} (keyOf : α → Bytes) (K : Bytes) :
    ∀ (l : List α) (acc : Option α) (b : α),
      l.foldl (chooseStep keyOf K) acc = some b → acc = some b ∨ b ∈ l := by
  intro l
  induction l with
  | nil => intro acc b h; exact Or.inl h
  | cons x xs ih =>
    intro acc b h
    rcases ih (chooseStep keyOf K acc x) b h with hstep | hmem
    · unfold chooseStep at hstep
      by_cases hle : keyOf x ≤ K
      · rw [if_pos hle] at hstep
        cases acc with
        | none =>
          injection hstep with hstep
          exact Or.inr (hstep ▸ List.mem_cons_self x xs)
        | some b0 =>
          have hstep' : (if keyOf b0 ≤ keyOf x then some x else some b0) = some b := hstep
          by_cases h2 : keyOf b0 ≤ keyOf x
          · rw [if_pos h2] at hstep'
            injection hstep' with hstep'
            exact Or.inr (hstep' ▸ List.mem_cons_self x xs)
          · rw [if_neg h2] at hstep'
            exact Or.inl hstep'
      · rw [if_neg hle] at hstep
        exact Or.inl hstep
    · exact Or.inr (List.mem_cons_of_mem _ hmem)

theorem revFind_eq_chooseGreatestLe {α : Type} (keyOf : α → Bytes) (K : Bytes) :
    ∀ (l : List α), ((l.map keyOf).Pairwise (· < ·)) →
      l.reverse.find? (fun x => decide (keyOf x ≤ K)) = chooseGreatestLe keyOf K l := by
  intro l
  induction l using List.reverseRecOn with
  | nil => intro _; rfl
  | append_singleton l x ih =>
    intro hp
    rw [List.map_append] at hp
    obtain ⟨hp', _, hcross⟩ := List.pairwise_append.mp hp
    have hlt : ∀ b ∈ l, keyOf b < keyOf x := fun b hb =>
      hcross (keyOf b) (List.mem_map_of_mem _ hb) (keyOf x) (by simp)
    rw [List.reverse_append, List.reverse_singleton, List.singleton_append,
      List.find?_cons]
    unfold chooseGreatestLe
    rw [List.foldl_append]
    by_cases hx : keyOf x ≤ K
    · rw [decide_eq_true hx]
      cases hc : l.foldl (chooseStep keyOf K) none with
      | none => simp [chooseStep, hx]
      | some b =>
        have hb : b ∈ l := by
          rcases chooseStep_foldl_mem keyOf K l none b hc with h0 | h1
          · exact absurd h0 (by simp)
          · exact h1
        simp [chooseStep, hx, le_of_lt (hlt b hb)]
    · rw [decide_eq_false hx]
      unfold chooseGreatestLe at ih
      rw [ih hp']
      cases hc : l.foldl (chooseStep keyOf K) none <;> simp [chooseStep, hx, hc]

/-- C5.  The lower-bound lookup first finds the top-level entry with the
greatest start key `≤ K`, loads that index block, and within it returns the
entry with the greatest start key `≤ K` (the candidate data block for `K`),
returning none when no such top-level entry or no such inner entry exists.
The sortedness hypotheses are the `BTreeMap` iteration order and the sorted
layout of index blocks. -/
theorem c5_lower_bound_matches_spec (m : MetaIndex) (key : Bytes)
    (htop : m.topSorted)
    (hblocks : ∀ e ∈ m.index.entries,
      ((m.blockAt e.2.offset).items.map (fun x => x.start_key)).Pairwise (· < ·)) :
    MetaIndex.get_lower_bound_block_info m key = lowerBoundSpec m key := by
  have htop' : (m.index.entries.map (fun e => e.1)).Pairwise (· < ·) := htop
  have htopEq := revFind_eq_chooseGreatestLe (fun e => e.1) key m.index.entries htop'
  cases hfind : m.index.entries.reverse.find? (fun e => decide (e.1 ≤ key)) with
  | none =>
    have h2 : chooseGreatestLe (fun e => e.1) key m.index.entries = none := by
      rw [← htopEq]; exact hfind
    simp [MetaIndex.get_lower_bound_block_info, lowerBoundSpec,
      DiskBlockIndex.get_lower_bound_block_info, hfind, h2]
  | some tp =>
    have h2 : chooseGreatestLe (fun e => e.1) key m.index.entries = some tp := by
      rw [← htopEq]; exact hfind
    have htp : tp ∈ m.index.entries :=
      List.mem_reverse.mp (List.mem_of_find?_eq_some hfind)
    have hinner := revFind_eq_chooseGreatestLe (fun x => x.start_key) key
      (m.blockAt tp.2.offset).items (hblocks tp htp)
    simp [MetaIndex.get_lower_bound_block_info, lowerBoundSpec,
      DiskBlockIndex.get_lower_bound_block_info, IndexBlock.get_lower_bound_block_info,
      MetaIndex.load_index_block, hfind, h2, hinner]

/-- Witness for C5 at a concrete sorted two-block index: looking up key `[1]`
selects the first index block and its entry with start key `[1]`. -/
theorem c5_lower_bound_matches_spec_witness :
    MetaIndex.get_lower_bound_block_info
        { index := ⟨[([0], ⟨0, 10⟩), ([2], ⟨1, 10⟩)]⟩
          blockAt := fun o =>
            if o = 0 then ⟨[⟨100, 5, [0]⟩, ⟨105, 5, [1]⟩]⟩ else ⟨[⟨110, 5, [2]⟩]⟩ } [1]
      = lowerBoundSpec
        { index := ⟨[([0], ⟨0, 10⟩), ([2], ⟨1, 10⟩)]⟩
          blockAt := fun o =>
            if o = 0 then ⟨[⟨100, 5, [0]⟩, ⟨105, 5, [1]⟩]⟩ else ⟨[⟨110, 5, [2]⟩]⟩ } [1] :=
  c5_lower_bound_matches_spec _ [1] (by decide) (by decide)

/-! ### C6 amended: soundness of `prefix_upper_bound` on aligned indexes -/

/-- C6 (amended).  `prefix_upper_bound(P)` returns the first data-block
entry of the first index block whose top-level key is lexicographically
greater than `P` and does not start with `P`, and none exactly when no such
index block exists; the returned start key is greater than `P` and does not
start with `P`, but data blocks with smaller qualifying start keys inside an
earlier index block (whose top-level key is `≤ P` or starts with `P`) may be
skipped. -/
theorem c6_prefix_upper_bound_sound (m : MetaIndex) (p : Bytes) (hal : m.aligned) :
    match MetaIndex.get_prefix_upper_bound m p with
    | none =>
        m.index.entries.find?
          (fun e => decide (p < e.1) && !(startsWithBytes p e.1)) = none
    | some e => p < e.start_key ∧ startsWithBytes p e.start_key = false := by
  cases hfind : m.index.get_prefix_upper_bound p with
  | none =>
    simp only [MetaIndex.get_prefix_upper_bound, hfind]
    exact hfind
  | some tp =>
    have htp : tp ∈ m.index.entries :=
      List.mem_of_find?_eq_some hfind
    have hpred := List.find?_some hfind
    have hlt : p < tp.1 := of_decide_eq_true (Bool.and_elim_left hpred)
    have hsw : startsWithBytes p tp.1 = false := by
      have := Bool.and_elim_right hpred
      simpa using this
    obtain ⟨hd, tl, hB⟩ : ∃ hd tl, (m.blockAt tp.2.offset).items = hd :: tl ∧
        hd.start_key = tp.1 := by
      have := hal tp htp
      cases hBitems : (m.blockAt tp.2.offset).items with
      | nil => rw [hBitems] at this; simp at this
      | cons hd tl =>
        rw [hBitems] at this
        simp only [List.head?_cons, Option.map_some] at this
        exact ⟨hd, tl, rfl, by injection this⟩
    simp only [MetaIndex.get_prefix_upper_bound, hfind, MetaIndex.load_index_block,
      hB.1, List.head?_cons]
    rw [hB.2]
    exact ⟨hlt, hsw⟩

/-- Witness for C6 at a concrete aligned index with prefix `[1,2]`: the
returned start key `[3]` is greater than the prefix and does not start with
it. -/
theorem c6_prefix_upper_bound_sound_witness :
    ([1, 2] : Bytes) < [3] ∧ startsWithBytes [1, 2] [3] = false :=
  c6_prefix_upper_bound_sound
    { index := ⟨[([1, 2, 1], ⟨0, 100⟩), ([3], ⟨100, 50⟩)]⟩
      blockAt := fun o =>
        if o = 0 then ⟨[⟨100, 10, [1, 2, 1]⟩, ⟨110, 10, [2]⟩]⟩
        else ⟨[⟨120, 10, [3]⟩]⟩ } [1, 2] (by decide)

/-! ### C4 amended: `upper_bound` agrees with the spec on start keys -/

theorem find?_split {α : Type} (p : α → Bool) :
    ∀ (l : List α) (x : α), l.find? p = some x →
      ∃ l₁ l₂, l = l₁ ++ x :: l₂ ∧ p x = true ∧ ∀ y ∈ l₁, p y = false := by
  intro l
  induction l with
  | nil => intro x h; simp at h
  | cons a as ih =>
    intro x h
    rw [List.find?_cons] at h
    cases hpa : p a with
    | true =>
      rw [hpa] at h
      injection h with h
      exact ⟨[], as, by simp [h], h ▸ hpa, by intro y hy; simp at hy⟩
    | false =>
      rw [hpa] at h
      obtain ⟨l₁, l₂, heq, hx, hall⟩ := ih x h
      refine ⟨a :: l₁, l₂, by rw [heq, List.cons_append], hx, ?_⟩
      intro y hy
      rcases List.mem_cons.mp hy with rfl | hy
      · exact hpa
      · exact hall y hy

theorem revFind_split {α : Type} (p : α → Bool) (l : List α) (x : α)
    (h : l.reverse.find? p = some x) :
    ∃ l₁ l₂, l = l₁ ++ x :: l₂ ∧ p x = true ∧ ∀ y ∈ l₂, p y = false := by
  obtain ⟨a, b, heq, hx, hall⟩ := find?_split p l.reverse x h
  refine ⟨b.reverse, a.reverse, ?_, hx, ?_⟩
  · have h2 := congrArg List.reverse heq
    rw [List.reverse_reverse] at h2
    rw [h2]
    simp [List.reverse_append]
  · intro y hy
    exact hall y (List.mem_reverse.mp hy)

theorem aligned_block {m : MetaIndex} (hal : m.aligned) {e : Bytes × DiskBlockReference}
    (he : e ∈ m.index.entries) :
    ∃ hd tl, (m.blockAt e.2.offset).items = hd :: tl ∧ hd.start_key = e.1 := by
  have h := hal e he
  cases hb : (m.blockAt e.2.offset).items with
  | nil => rw [hb] at h; simp at h
  | cons hd tl =>
    rw [hb] at h
    simp only [List.head?_cons, Option.map_some] at h
    exact ⟨hd, tl, rfl, by injection h⟩

/-- C4 (amended).  Provided the key is at least the smallest top-level key
(the top-level lower bound exists), `upper_bound(K)` returns an entry whose
start key is that of the first data block with start key greater than `K`,
and none exactly when no such data block exists; but when the hit straddles
an index-block boundary, the entry returned is the top-level entry of the
next index block itself — carrying that index block's offset and size,
without loading it — rather than the first data-block entry of that block. -/
theorem c4_upper_bound_start_key (m : MetaIndex) (key : Bytes)
    (tp : Bytes × DiskBlockReference)
    (htop : m.topSorted) (hflat : m.flatSorted) (hal : m.aligned)
    (hfind : m.index.get_lower_bound_block_info key = some tp) :
    (MetaIndex.get_upper_bound_block_info m key).map (fun e => e.start_key)
      = (upperBoundSpec m key).map (fun e => e.start_key) := by
  obtain ⟨E₁, E₂, hE, htpP, hE₂P⟩ := revFind_split _ _ _ hfind
  have htple : tp.1 ≤ key := of_decide_eq_true htpP
  have hE₂gt : ∀ e ∈ E₂, key < e.1 := fun e he =>
    not_le.mp (of_decide_eq_false (hE₂P e he))
  have htpmem : tp ∈ m.index.entries := by
    rw [hE]; exact List.mem_append_right _ (List.mem_cons_self _ _)
  obtain ⟨hd, tl, hB, hhd⟩ := aligned_block hal htpmem
  have hADE : allDataEntries m
      = (E₁.map (fun e => (m.blockAt e.2.offset).items)).flatten
        ++ ((m.blockAt tp.2.offset).items
            ++ (E₂.map (fun e => (m.blockAt e.2.offset).items)).flatten) := by
    unfold allDataEntries
    rw [hE, List.map_append, List.map_cons, List.flatten_append, List.flatten_cons]
  have hflat' : (((E₁.map (fun e => (m.blockAt e.2.offset).items)).flatten.map
        (fun e => e.start_key))
      ++ (((m.blockAt tp.2.offset).items.map (fun e => e.start_key))
          ++ ((E₂.map (fun e => (m.blockAt e.2.offset).items)).flatten.map
              (fun e => e.start_key)))).Pairwise (· < ·) := by
    have h0 : ((allDataEntries m).map (fun e => e.start_key)).Pairwise (· < ·) := hflat
    rw [hADE, List.map_append, List.map_append] at h0
    exact h0
  obtain ⟨_, _, hC1⟩ := List.pairwise_append.mp hflat'
  have hL1le : ∀ y ∈ (E₁.map (fun e => (m.blockAt e.2.offset).items)).flatten,
      ¬ (key < y.start_key) := by
    intro y hy
    have hmem : hd.start_key ∈ ((m.blockAt tp.2.offset).items.map (fun e => e.start_key))
        ++ ((E₂.map (fun e => (m.blockAt e.2.offset).items)).flatten.map
            (fun e => e.start_key)) := by
      apply List.mem_append_left
      rw [hB]
      exact List.mem_map_of_mem _ (List.mem_cons_self hd tl)
    have h1 : y.start_key < hd.start_key :=
      hC1 y.start_key (List.mem_map_of_mem _ hy) hd.start_key hmem
    rw [hhd] at h1
    exact not_lt.mpr (le_of_lt (lt_of_lt_of_le h1 htple))
  have hL1none : (E₁.map (fun e => (m.blockAt e.2.offset).items)).flatten.find?
      (fun x => decide (key < x.start_key)) = none :=
    List.find?_eq_none.mpr (fun x hx => by simpa using hL1le x hx)
  have hspec : upperBoundSpec m key
      = ((m.blockAt tp.2.offset).items
          ++ (E₂.map (fun e => (m.blockAt e.2.offset).items)).flatten).find?
            (fun x => decide (key < x.start_key)) := by
    unfold upperBoundSpec
    rw [hADE, List.find?_append, hL1none]
    simp
  simp only [MetaIndex.get_upper_bound_block_info, MetaIndex.load_index_block,
    IndexBlock.get_next_block_info, DiskBlockIndex.get_next_block_key, hfind, hspec,
    List.find?_append]
  cases hnext : (m.blockAt tp.2.offset).items.find? (fun x => decide (key < x.start_key)) with
  | some d => simp
  | none =>
    simp only [Option.none_or]
    have htopE : ((E₁.map (fun e => e.1)).Pairwise (· < ·)) ∧
        (((tp :: E₂).map (fun e => e.1)).Pairwise (· < ·)) ∧
        ∀ a ∈ E₁.map (fun e => e.1), ∀ b ∈ (tp :: E₂).map (fun e => e.1), a < b := by
      have h0 : (m.index.entries.map (fun e => e.1)).Pairwise (· < ·) := htop
      rw [hE, List.map_append] at h0
      exact List.pairwise_append.mp h0
    have hE₁fail : ∀ e ∈ E₁, ¬ (key < e.1) := by
      intro e he
      have h1 : e.1 < tp.1 :=
        htopE.2.2 e.1 (List.mem_map_of_mem _ he) tp.1 (by simp)
      exact not_lt.mpr (le_of_lt (lt_of_lt_of_le h1 htple))
    have hfind2 : m.index.entries.find? (fun e => decide (key < e.1))
        = E₂.find? (fun e => decide (key < e.1)) := by
      rw [hE, List.find?_append,
        List.find?_eq_none.mpr (fun x hx => by simpa using hE₁fail x hx),
        List.find?_cons, decide_eq_false (not_lt.mpr htple)]
      simp
    rw [hfind2]
    cases E₂ with
    | nil => simp
    | cons e' E₂' =>
      have he'gt : key < e'.1 := hE₂gt e' (List.mem_cons_self _ _)
      have he'mem : e' ∈ m.index.entries := by
        rw [hE]
        exact List.mem_append_right _ (List.mem_cons_of_mem _ (List.mem_cons_self _ _))
      obtain ⟨hd', tl', hB', hhd'⟩ := aligned_block hal he'mem
      rw [List.find?_cons, decide_eq_true he'gt]
      rw [List.map_cons, List.flatten_cons, hB', List.cons_append,
        List.find?_cons, decide_eq_true (hhd' ▸ he'gt)]
      simp [hhd']

/-- Witness for C4 at a concrete well-formed two-block index: the upper
bound of key `[1]` straddles the boundary, and the start key of the result
agrees with the first data block whose start key exceeds `[1]`. -/
theorem c4_upper_bound_start_key_witness :
    (MetaIndex.get_upper_bound_block_info
        { index := ⟨[([0], ⟨0, 100⟩), ([2], ⟨100, 50⟩)]⟩
          blockAt := fun o =>
            if o = 0 then ⟨[⟨1000, 10, [0]⟩, ⟨1010, 10, [1]⟩]⟩
            else ⟨[⟨1020, 10, [2]⟩, ⟨1030, 10, [3]⟩]⟩ } [1]).map (fun e => e.start_key)
      = (upperBoundSpec
        { index := ⟨[([0], ⟨0, 100⟩), ([2], ⟨100, 50⟩)]⟩
          blockAt := fun o =>
            if o = 0 then ⟨[⟨1000, 10, [0]⟩, ⟨1010, 10, [1]⟩]⟩
            else ⟨[⟨1020, 10, [2]⟩, ⟨1030, 10, [3]⟩]⟩ } [1]).map (fun e => e.start_key) :=
  c4_upper_bound_start_key _ [1] ([0], ⟨0, 100⟩)
    (by decide) (by decide) (by decide) (by decide)

end LsmTree
